import Mathlib

/-!
Verification of the multi-proxy-config-fetcher aggregation core.

We give a shallow embedding of the two source modules
(src/fetch_configs.py and src/config.py) over `List Char` strings:

* the regex extraction step (`re.findall` over the protocol pattern),
* the retry loop of `ConfigFetcher.fetch_with_retry`,
* the per-candidate pipeline `process_single_config` together with the
  shared dedup set `seen_configs`,
* the selector `balance_protocols` and the alternative `rank_and_filter`.

External collaborators that are not part of the repository sources
(the `ConfigValidator` capability and the `ProxyConfig` protocol
registry) are represented abstractly: validator operations are fields
of a `Validator` record that theorems quantify over, and the registry
is a list of `ProtocolInfo` entries, both following section 6 of the
specification.  Definitions modelled from the spec rather than from
the sources carry a doc comment saying so.
-/

/-! ### Strings

Candidate strings are lists of characters.  Python string primitives
used by the sources (strip, startswith, findall) are modelled below.
-/

abbrev Str := List Char

/-- Characters accepted by Python `\s` for the ASCII range: space, tab,
newline, carriage return, vertical tab and form feed.  (Python also
strips some further Unicode space characters, which no claim exercises.) -/
def pyIsSpace (c : Char) : Bool :=
  c == ' ' || c == '\t' || c == '\n' || c == '\r' || c == '\x0b' || c == '\x0c'

/-- Model of Python `str.rstrip()`. -/
def pyRstrip (s : Str) : Str :=
  (s.reverse.dropWhile pyIsSpace).reverse

/-- Model of Python `str.strip()`: drop whitespace from both ends. -/
def pyStrip (s : Str) : Str :=
  pyRstrip (s.dropWhile pyIsSpace)

/-! ### Extractor

fetch_configs.py line 40 defines
`protocol_pattern = (vless|vmess|ss|trojan|hy2|shadowsocks):\/\/[^\s<>"\x27|]+`
and line 62 runs `re.findall(self.protocol_pattern, text, re.IGNORECASE)`.
The alternation is wrapped in a capturing group, so `re.findall` returns
the text matched by the GROUP (the scheme token alone), not the whole
match.  The matcher below reproduces the Python semantics exactly:
alternatives are tried left to right, matching is case-insensitive, the
scan is non-overlapping and resumes after each match.
-/

/-- Characters allowed in the payload part of the pattern: everything
except whitespace, angle brackets, double quote, single quote and pipe. -/
def allowedChar (c : Char) : Bool :=
  !(pyIsSpace c || c == '<' || c == '>' || c == '"' || c == '\'' || c == '|')

/-- Alternatives of the capturing group of `protocol_pattern` in
fetch_configs.py, in source order. -/
def protocolAlternatives : List Str :=
  ["vless".toList, "vmess".toList, "ss".toList, "trojan".toList,
   "hy2".toList, "shadowsocks".toList]

/-- Case-insensitive literal prefix match.  On success returns the
consumed characters as they appear in the text (the capture of the
group) together with the remaining suffix. -/
def ciPrefix : Str → Str → Option (Str × Str)
  | [], s => some ([], s)
  | _ :: _, [] => none
  | a :: as, c :: cs =>
    if c.toLower = a then
      match ciPrefix as cs with
      | some (g, r) => some (c :: g, r)
      | none => none
    else none

/-- Consume the literal `://` separator of the pattern. -/
def sepSplit : Str → Option Str
  | ':' :: '/' :: '/' :: rest => some rest
  | _ => none

/-- Consume the greedy nonempty payload `[^\s<>"\x27|]+`; returns the
suffix after the maximal run, or `none` when the run is empty. -/
def payloadSplit (r : Str) : Option Str :=
  if r.takeWhile allowedChar = [] then none else some (r.dropWhile allowedChar)

/-- Match of one alternative at the start of `s`: its scheme token
case-insensitively, then `://`, then a nonempty greedy payload.  On
success returns the captured group (the scheme as written in the text)
and the suffix following the whole match. -/
def tryOne (a s : Str) : Option (Str × Str) :=
  (ciPrefix a s).bind fun gr =>
    (sepSplit gr.2).bind fun r2 =>
      (payloadSplit r2).map fun r3 => (gr.1, r3)

/-- Try to match the whole pattern at the start of `s`, attempting the
scheme alternatives in order (regex alternation semantics). -/
def tryAlts : List Str → Str → Option (Str × Str)
  | [], _ => none
  | a :: as, s =>
    match tryOne a s with
    | some gr => some gr
    | none => tryAlts as s

/-- Match of `protocol_pattern` at the start of `s`. -/
def matchProtocolAt (s : Str) : Option (Str × Str) :=
  tryAlts protocolAlternatives s

theorem ciPrefix_length : ∀ (a s g r : Str), ciPrefix a s = some (g, r) → r.length ≤ s.length := by
  intro a
  induction a with
  | nil =>
    intro s g r h
    simp only [ciPrefix, Option.some.injEq, Prod.mk.injEq] at h
    rw [← h.2]
  | cons x xs ih =>
    intro s g r h
    cases s with
    | nil => simp [ciPrefix] at h
    | cons c cs =>
      simp only [ciPrefix] at h
      by_cases hc : c.toLower = x
      · rw [if_pos hc] at h
        cases hcp : ciPrefix xs cs with
        | none => rw [hcp] at h; simp at h
        | some gr =>
          rw [hcp] at h
          obtain ⟨g2, r2⟩ := gr
          simp only [Option.some.injEq, Prod.mk.injEq] at h
          have := ih cs g2 r2 hcp
          have hr : r = r2 := h.2.symm
          subst hr
          simp only [List.length_cons]
          omega
      · simp [hc] at h

theorem sepSplit_length (r r2 : Str) (h : sepSplit r = some r2) : r2.length < r.length := by
  unfold sepSplit at h
  split at h
  · simp only [Option.some.injEq] at h
    subst h
    simp only [List.length_cons]
    omega
  · simp at h

theorem payloadSplit_length (r r2 : Str) (h : payloadSplit r = some r2) : r2.length < r.length := by
  unfold payloadSplit at h
  split at h
  · simp at h
  · rename_i hne
    simp only [Option.some.injEq] at h
    have hsplit := List.takeWhile_append_dropWhile allowedChar r
    have hlen : (r.takeWhile allowedChar).length + (r.dropWhile allowedChar).length = r.length := by
      rw [← List.length_append, hsplit]
    have hpos : 0 < (r.takeWhile allowedChar).length := List.length_pos.mpr hne
    have hr2 : (r.dropWhile allowedChar).length = r2.length := by rw [h]
    omega

theorem tryOne_length (a s g r : Str) (h : tryOne a s = some (g, r)) : r.length < s.length := by
  unfold tryOne at h
  obtain ⟨⟨g1, r1⟩, hcp, h⟩ := Option.bind_eq_some.mp h
  obtain ⟨r2, hsep, h⟩ := Option.bind_eq_some.mp h
  obtain ⟨r3, hpay, h⟩ := Option.map_eq_some'.mp h
  obtain ⟨-, hr⟩ := Prod.mk.injEq .. ▸ h
  have h1 := ciPrefix_length a s g1 r1 hcp
  have h2 := sepSplit_length r1 r2 hsep
  have h3 := payloadSplit_length r2 r3 hpay
  have : r3.length = r.length := by rw [hr]
  omega

theorem tryAlts_length : ∀ (alts : List Str) (s g r : Str),
    tryAlts alts s = some (g, r) → r.length < s.length := by
  intro alts
  induction alts with
  | nil => intro s g r h; simp [tryAlts] at h
  | cons a as ih =>
    intro s g r h
    simp only [tryAlts] at h
    cases h1 : tryOne a s with
    | none => rw [h1] at h; exact ih s g r h
    | some gr =>
      rw [h1] at h
      simp only [Option.some.injEq] at h
      subst h
      exact tryOne_length a s g r h1

theorem matchProtocolAt_length (s g r : Str) (h : matchProtocolAt s = some (g, r)) :
    r.length < s.length :=
  tryAlts_length protocolAlternatives s g r h

/-- Scan loop of `re.findall`, with explicit fuel to keep the recursion
structural (so that concrete runs evaluate by `decide`).  Each step
either records a match and resumes after it, or advances one character.
`pyFindallAux_congr` below shows any fuel of at least the length of the
text gives the same result, so the fuel is only a recursion device. -/
def pyFindallAux : Nat → Str → List Str
  | 0, _ => []
  | _ + 1, [] => []
  | fuel + 1, c :: cs =>
    match matchProtocolAt (c :: cs) with
    | some (g, rest) => g :: pyFindallAux fuel rest
    | none => pyFindallAux fuel cs

/-- Model of `re.findall(protocol_pattern, text, re.IGNORECASE)`: the
list of captured groups of the non-overlapping matches, left to right. -/
def pyFindall (s : Str) : List Str :=
  pyFindallAux s.length s

theorem pyFindallAux_congr : ∀ (f1 : Nat) (s : Str) (f2 : Nat), s.length ≤ f1 → s.length ≤ f2 →
    pyFindallAux f1 s = pyFindallAux f2 s := by
  intro f1
  induction f1 with
  | zero =>
    intro s f2 h1 _
    have : s = [] := List.eq_nil_of_length_eq_zero (by omega)
    subst this
    cases f2 <;> simp [pyFindallAux]
  | succ f ih =>
    intro s f2 h1 h2
    cases s with
    | nil => cases f2 <;> simp [pyFindallAux]
    | cons c cs =>
      cases f2 with
      | zero => simp at h2
      | succ f2p =>
        simp only [pyFindallAux]
        cases hm : matchProtocolAt (c :: cs) with
        | none =>
          simp only []
          exact ih cs f2p (by simp at h1; omega) (by simp at h2; omega)
        | some gr =>
          obtain ⟨g, rest⟩ := gr
          simp only []
          have hlt := matchProtocolAt_length _ _ _ hm
          rw [ih rest f2p (by simp at h1 hlt ⊢; omega) (by simp at h2 hlt ⊢; omega)]

/-- External validator capability (config_validator.py is not part of
the sources; section 6 of the spec lists its operations).  Theorems
quantify over an arbitrary validator. -/
structure Validator where
  isBase64 : Str → Bool
  decodeBase64 : Str → Option Str
  cleanVmess : Str → Str
  clean : Str → Str
  validate : Str → Str → Bool

/-- Validator instance used to evaluate concrete runs: nothing is
base64, cleaning is the identity and validation always passes. -/
def trivialValidator : Validator :=
  { isBase64 := fun _ => false
    decodeBase64 := fun _ => none
    cleanVmess := id
    clean := id
    validate := fun _ _ => true }

/-- Model of `ConfigFetcher.extract_configs_from_text`
(fetch_configs.py lines 55-63): optional whole-text base64 decode of
the stripped text, then `re.findall`, then `list(set(found))`.  The
set conversion is modelled by `dedup` (the spec leaves the order
unspecified). -/
def extract_configs_from_text (V : Validator) (text : Str) : List Str :=
  let t :=
    if V.isBase64 (pyStrip text) then
      match V.decodeBase64 (pyStrip text) with
      | some d => d
      | none => text
    else text
  (pyFindall t).dedup

/-- Whole-string match of the pattern grammar: a supported scheme,
then `://`, then a nonempty run of allowed characters reaching the end
of the string. -/
def isFullConfigMatch (w : Str) : Bool :=
  match matchProtocolAt w with
  | some (_, []) => true
  | _ => false

/-- C1: refuted as stated.  Because the scheme alternation of
`protocol_pattern` is a capturing group, `re.findall` returns only the
captured scheme token, not the whole scheme-plus-payload match.  On the
text `vless://abc` the extractor returns `[vless]`: the element is not
a complete grammar match, and the complete match `vless://abc` is not
among the results. -/
theorem extract_returns_capture_group_only :
    extract_configs_from_text trivialValidator "vless://abc".toList = ["vless".toList] ∧
    isFullConfigMatch "vless".toList = false ∧
    "vless://abc".toList ∉ extract_configs_from_text trivialValidator "vless://abc".toList := by
  decide

/-! ### Fetcher with retry

`ConfigFetcher.fetch_with_retry` (fetch_configs.py lines 42-53) issues
up to `MAX_RETRIES` GET requests.  A request outcome is modelled as
`Option Nat`: `none` is a connection error or timeout (a
`requests.RequestException` raised by the transport), `some status` is
an HTTP response with that status code.  `response.raise_for_status()`
raises exactly for status codes 400-599, so any other response is
returned as success.  On every failure the code sleeps
`min(RETRY_DELAY * backoff, 30)` and doubles `backoff`, including on
the failure of the last permitted attempt.
-/

/-- Outcome classification of one attempt: `raise_for_status` raises
for client and server error codes (400-599); a transport error also
counts as failure. -/
def attemptOK : Option Nat → Bool
  | none => false
  | some status => if 400 ≤ status ∧ status < 600 then false else true

/-- Result of a `fetch_with_retry` run: the successful attempt index
(standing for the returned response, `none` on exhaustion), the list of
sleeps performed in order, and the number of requests issued. -/
structure FetchResult where
  result : Option Nat
  sleeps : List Nat
  attempts : Nat
deriving DecidableEq

/-- Loop of `fetch_with_retry`: `n` attempts remain, the next attempt
has index `i`, and the current `backoff` multiplier is `b`. -/
def fetchLoop (d : Nat) (resp : Nat → Option Nat) : Nat → Nat → Nat → FetchResult
  | 0, _, _ => ⟨none, [], 0⟩
  | n + 1, i, b =>
    if attemptOK (resp i) then ⟨some i, [], 1⟩
    else
      let rest := fetchLoop d resp n (i + 1) (b * 2)
      ⟨rest.result, min (d * b) 30 :: rest.sleeps, rest.attempts + 1⟩

/-- Model of `ConfigFetcher.fetch_with_retry` with `MAX_RETRIES`
attempts and base delay `RETRY_DELAY = d` (both read from the external
`ProxyConfig`, so they are parameters here): `backoff` starts at 1. -/
def fetch_with_retry (maxRetries d : Nat) (resp : Nat → Option Nat) : FetchResult :=
  fetchLoop d resp maxRetries 0 1

/-- Backoff delay of the spec, section 4.1: `min(cap, d * 2 ^ i)` with
the cap hard-coded to 30 in the source. -/
def nextDelay (d i : Nat) : Nat :=
  min (d * 2 ^ i) 30

theorem fetchLoop_spec (d : Nat) (resp : Nat → Option Nat) :
    ∀ (k n start b : Nat), k ≤ n →
    (∀ j, j < k → attemptOK (resp (start + j)) = false) →
    (k < n → attemptOK (resp (start + k)) = true) →
    fetchLoop d resp n start b =
      ⟨if k < n then some (start + k) else none,
       (List.range k).map fun i => min (d * (b * 2 ^ i)) 30,
       min n (k + 1)⟩ := by
  intro k
  induction k with
  | zero =>
    intro n start b _ _ hsucc
    cases n with
    | zero => simp [fetchLoop]
    | succ m =>
      have hok : attemptOK (resp start) = true := by
        have := hsucc (by omega)
        simpa using this
      have hmin : min (m + 1) 1 = 1 := by omega
      simp [fetchLoop, hok, hmin]
  | succ j ih =>
    intro n start b hk hfail hsucc
    cases n with
    | zero => omega
    | succ m =>
      have hfail0 : attemptOK (resp start) = false := by
        have := hfail 0 (by omega)
        simpa using this
      have ihm := ih m (start + 1) (b * 2) (by omega)
        (fun jj hjj => by
          have := hfail (jj + 1) (by omega)
          have harg : start + (jj + 1) = start + 1 + jj := by omega
          rwa [harg] at this)
        (fun hlt => by
          have := hsucc (by omega)
          have harg : start + (j + 1) = start + 1 + j := by omega
          rwa [harg] at this)
      simp only [fetchLoop, hfail0, Bool.false_eq_true, if_false]
      rw [ihm]
      simp only [FetchResult.mk.injEq]
      refine ⟨?_, ?_, ?_⟩
      · by_cases hjm : j < m
        · rw [if_pos hjm, if_pos (by omega)]
          simp only [Option.some.injEq]
          omega
        · rw [if_neg hjm, if_neg (by omega)]
      · rw [List.range_succ_eq_map, List.map_cons, List.map_map]
        refine congrArg₂ List.cons (by simp) ?_
        refine List.map_congr_left fun i _ => ?_
        have hpow : b * 2 * 2 ^ i = b * 2 ^ (i + 1) := by ring
        simp [Function.comp, hpow]
      · omega

/-- Success criterion of `fetch_from_channel` in config.py lines 58-59:
the response is discarded unless the status code equals 200 exactly. -/
def fetch_from_channel_accepts (status : Nat) : Bool :=
  status == 200

/-- C4 counterexample: with `MAX_RETRIES = 3`, `RETRY_DELAY = 1` and
every attempt failing, the run sleeps three times (`[1, 2, 4]`), i.e. a
backoff delay IS applied after the final permitted attempt, where the
claim allows at most `MAX_RETRIES - 1 = 2` delays. -/
theorem fetch_retry_trailing_sleep_cex :
    (fetch_with_retry 3 1 fun _ => none).sleeps = [1, 2, 4] ∧
    ¬ (fetch_with_retry 3 1 fun _ => none).sleeps.length ≤ 3 - 1 := by
  decide

/-- C4 amended: the delay slept before retry `i + 1` is
`nextDelay d i = min(d * 2 ^ i, 30)`; when the run fails `k` attempts
(followed by a success if any attempt remains) the sleeps are exactly
`nextDelay d 0, ..., nextDelay d (k - 1)` -- so on exhaustion
(`k = MAX_RETRIES`) a trailing delay is also applied after the final
attempt, contrary to the original claim. -/
theorem fetch_retry_backoff_delays (maxRetries d k : Nat) (resp : Nat → Option Nat)
    (hk : k ≤ maxRetries)
    (hfail : ∀ j, j < k → attemptOK (resp j) = false)
    (hsucc : k < maxRetries → attemptOK (resp k) = true) :
    (fetch_with_retry maxRetries d resp).sleeps = (List.range k).map (nextDelay d) := by
  have hspec := fetchLoop_spec d resp k maxRetries 0 1 hk
    (fun j hj => by simpa using hfail j hj)
    (fun h => by simpa using hsucc h)
  unfold fetch_with_retry
  rw [hspec]
  exact List.map_congr_left fun i _ => by simp [nextDelay]

theorem fetch_retry_backoff_delays_witness :
    (fetch_with_retry 3 1 fun _ => none).sleeps = (List.range 3).map (nextDelay 1) :=
  fetch_retry_backoff_delays 3 1 3 (fun _ => none) (by omega)
    (fun _ _ => rfl) (fun h => absurd h (by omega))

/-- C5: if the first `k < MAX_RETRIES` attempts fail and attempt `k`
(0-based, i.e. the `(k+1)`-th attempt) succeeds, the fetch returns that
response having issued exactly `k + 1` requests, and the total time
slept is the sum of `nextDelay d 0, ..., nextDelay d (k - 1)`. -/
theorem fetch_retry_success_spec (maxRetries d k : Nat) (resp : Nat → Option Nat)
    (hk : k < maxRetries)
    (hfail : ∀ j, j < k → attemptOK (resp j) = false)
    (hsucc : attemptOK (resp k) = true) :
    (fetch_with_retry maxRetries d resp).result = some k ∧
    (fetch_with_retry maxRetries d resp).attempts = k + 1 ∧
    (fetch_with_retry maxRetries d resp).sleeps.sum = ((List.range k).map (nextDelay d)).sum := by
  have hspec := fetchLoop_spec d resp k maxRetries 0 1 (by omega)
    (fun j hj => by simpa using hfail j hj)
    (fun _ => by simpa using hsucc)
  unfold fetch_with_retry
  rw [hspec]
  refine ⟨by simp [hk], by simp; omega, ?_⟩
  refine congrArg List.sum (List.map_congr_left fun i _ => by simp [nextDelay])

theorem fetch_retry_success_spec_witness :
    (fetch_with_retry 3 1 fun i => if i = 1 then some 200 else none).result = some 1 ∧
    (fetch_with_retry 3 1 fun i => if i = 1 then some 200 else none).attempts = 1 + 1 ∧
    (fetch_with_retry 3 1 fun i => if i = 1 then some 200 else none).sleeps.sum =
      ((List.range 1).map (nextDelay 1)).sum :=
  fetch_retry_success_spec 3 1 1 _ (by omega)
    (fun j hj => by
      have hj0 : j = 0 := by omega
      subst hj0
      rfl)
    (by rfl)

/-- C9 counterexample: a response with status 304 is outside the 2xx
range, yet the very first attempt is treated as a success (the loop
returns it without any retry); and config.py discards a 201 response,
which IS in the 2xx range.  So "success iff status in 200-299" fails in
both directions. -/
theorem fetch_status_criterion_cex :
    (fetch_with_retry 3 1 fun _ => some 304).result = some 0 ∧
    ¬ (200 ≤ 304 ∧ 304 ≤ 299) ∧
    fetch_from_channel_accepts 201 = false ∧
    (200 ≤ 201 ∧ 201 ≤ 299) := by
  decide

/-- C9 amended: an attempt of `fetch_with_retry` is treated as a
success exactly when its outcome is a response whose status code lies
outside 400-599 (the `raise_for_status` criterion); with every attempt
returning status `s`, the run succeeds on the first attempt iff `s` is
outside that range.  (`fetch_from_channel` in config.py separately
requires the status to equal 200 exactly.) -/
theorem fetch_status_criterion (maxRetries d s : Nat) (hpos : 0 < maxRetries) :
    (fetch_with_retry maxRetries d fun _ => some s).result = some 0 ↔
      ¬ (400 ≤ s ∧ s < 600) := by
  constructor
  · intro h
    intro hbad
    have hfail : attemptOK (some s) = false := by simp [attemptOK, hbad]
    have hspec := fetchLoop_spec d (fun _ => some s) maxRetries maxRetries 0 1 (le_refl _)
      (fun j _ => hfail) (fun hlt => absurd hlt (by omega))
    unfold fetch_with_retry at h
    rw [hspec] at h
    simp at h
  · intro hgood
    have hok : attemptOK (some s) = true := by simp [attemptOK, hgood]
    have hspec := fetchLoop_spec d (fun _ => some s) 0 maxRetries 0 1 (by omega)
      (fun j hj => by omega) (fun _ => hok)
    unfold fetch_with_retry
    rw [hspec]
    simp [hpos]

theorem fetch_status_criterion_witness :
    (fetch_with_retry 3 1 fun _ => some 304).result = some 0 :=
  (fetch_status_criterion 3 1 304 (by omega)).mpr (by omega)

/-! ### Protocol registry and candidate processing -/

/-- Modelled from the spec: the protocol registry
`ProxyConfig.SUPPORTED_PROTOCOLS` lives in the external config.py
module that is not among the sources.  Section 6 of the spec describes
it as a mapping scheme to `{enabled, aliases, priority}`; the dict is
modelled as a list of entries in insertion order. -/
structure ProtocolInfo where
  scheme : Str
  aliases : List Str
  enabled : Bool
  priority : Int
deriving DecidableEq

/-- Schemes of the registry in insertion order (the iteration order of
the Python dict). -/
def registrySchemes (reg : List ProtocolInfo) : List Str :=
  reg.map (fun e => e.scheme)

/-- Modelled from the spec: `ConfigValidator.normalize_hysteria2_protocol`
is part of the external validator; section 4.4a of the spec says alias
spelling is normalized, `hy2://` becoming `hysteria2://`. -/
def normalize_hysteria2_protocol (c : Str) : Str :=
  if "hy2://".toList.isPrefixOf c then "hysteria2://".toList ++ c.drop 6 else c

/-- Loop body of `process_single_config` (fetch_configs.py lines
73-84): walk the registry entries in order; on the first entry whose
scheme or alias is a prefix of the candidate, fail if the protocol is
disabled, else clean (with the special vmess pre-clean, which rebinds
the loop variable `config`) and validate; a validated string already in
`seen_configs` falls through to the next registry entry. -/
def process_loop (V : Validator) (seen : List Str) : List ProtocolInfo → Str → Option Str
  | [], _ => none
  | p :: ps, config =>
    if (p.scheme :: p.aliases).any (fun a => a.isPrefixOf config) then
      if p.enabled then
        let config2 := if p.scheme = "vmess://".toList then V.cleanVmess config else config
        let cleanC := V.clean config2
        if V.validate cleanC p.scheme then
          if cleanC ∈ seen then process_loop V seen ps config2 else some cleanC
        else process_loop V seen ps config2
      else none
    else process_loop V seen ps config

/-- Model of `process_single_config` (fetch_configs.py lines 65-86):
strip the raw candidate, normalize an `hy2://` spelling, then run the
registry loop.  The `is_protocol_enabled` check consults the external
registry, modelled by the `enabled` field (spec section 6). -/
def process_single_config (V : Validator) (reg : List ProtocolInfo) (seen : List Str)
    (raw : Str) : Option Str :=
  let config := pyStrip raw
  let config :=
    if "hy2://".toList.isPrefixOf config then normalize_hysteria2_protocol config else config
  process_loop V seen reg config

/-- Candidate loop of `fetch_configs_from_source` (fetch_configs.py
lines 114-118): each candidate accepted by `process_single_config` is
appended to the channel result and added to the shared `seen_configs`
set; a dropped candidate changes nothing.  The set is modelled as the
list of its insertions.  Returns the accepted list and the final set. -/
def processRaws (V : Validator) (reg : List ProtocolInfo) :
    List Str → List Str → List Str × List Str
  | seen, [] => ([], seen)
  | seen, r :: rs =>
    match process_single_config V reg seen r with
    | some c =>
      let rest := processRaws V reg (seen ++ [c]) rs
      (c :: rest.1, rest.2)
    | none => processRaws V reg seen rs

/-- Sequential execution of the per-channel pipelines sharing one
`seen_configs` set, each channel abstracted by the candidate list its
fetch and extraction stages produce; results are concatenated in
channel order, as the fan-in loop of `fetch_all_configs` does. -/
def runChannels (V : Validator) (reg : List ProtocolInfo) :
    List Str → List (List Str) → List Str × List Str
  | seen, [] => ([], seen)
  | seen, ch :: chs =>
    let first := processRaws V reg seen ch
    let rest := runChannels V reg first.2 chs
    (first.1 ++ rest.1, rest.2)

/-! ### Selector -/

/-- First registry scheme that is a prefix of the candidate: the
bucketing rule of `balance_protocols` (fetch_configs.py lines 152-157),
which walks `proto_map` in registry order and breaks on the first
`startswith` hit. -/
def firstProto (keys : List Str) (c : Str) : Option Str :=
  keys.find? (fun p => p.isPrefixOf c)

/-- Bucket of one protocol: the configs (in merged order) whose first
matching registry scheme is `p`. -/
def bucket (keys : List Str) (cfgs : List Str) (p : Str) : List Str :=
  cfgs.filter (fun c => decide (firstProto keys c = some p))

/-- Comparison used by `balance_protocols`: Python
`sorted(key=priority, reverse=True)` is a stable sort putting higher
priorities first, keeping registry order on ties. -/
def protoLe (a b : ProtocolInfo) : Bool :=
  decide (b.priority ≤ a.priority)

/-- Registry entries sorted by descending priority (stable). -/
def sortedProtocols (reg : List ProtocolInfo) : List ProtocolInfo :=
  reg.mergeSort protoLe

/-- Bucket walk of `balance_protocols` (fetch_configs.py lines
166-173): extend the selection with whole buckets until a bucket makes
it reach 150, then stop. -/
def collectBuckets : List Str → List (List Str) → List Str
  | acc, [] => acc
  | acc, b :: bs =>
    let acc2 := acc ++ b
    if 150 ≤ acc2.length then acc2 else collectBuckets acc2 bs

/-- Model of `balance_protocols` (fetch_configs.py lines 149-176):
bucket the merged configs by first matching registry scheme, walk the
buckets in descending priority order, and return the first 150
entries of the selection. -/
def balance_protocols (reg : List ProtocolInfo) (cfgs : List Str) : List Str :=
  let keys := registrySchemes reg
  let bs := (sortedProtocols reg).map (fun e => bucket keys cfgs e.scheme)
  (collectBuckets [] bs).take 150

/-- Model of `fetch_all_configs` (fetch_configs.py lines 127-147) run
sequentially: concatenate the per-channel accepted lists in channel
order and, when nonempty, balance them. -/
def fetch_all_configs (V : Validator) (reg : List ProtocolInfo)
    (chRaws : List (List Str)) : List Str :=
  let allConfigs := (runChannels V reg [] chRaws).1
  if allConfigs = [] then [] else balance_protocols reg allConfigs

/-- Fixed priority list of `rank_and_filter` (config.py line 96). -/
def rankPriority : List Str :=
  ["vless://".toList, "trojan://".toList, "hy2://".toList, "ss://".toList, "vmess://".toList]

/-- Inner pass of `rank_and_filter` (config.py lines 100-102): append
every config starting with the current priority prefix (with
`hysteria2://` also matching the `hy2://` pass) that is not already in
the selection. -/
def rankPass (p : Str) : List Str → List Str → List Str
  | acc, [] => acc
  | acc, c :: cs =>
    if (p.isPrefixOf c || (p == "hy2://".toList && "hysteria2://".toList.isPrefixOf c))
        && !(acc.contains c) then
      rankPass p (acc ++ [c]) cs
    else
      rankPass p acc cs

/-- Priority walk of `rank_and_filter` (config.py lines 99-103):
after each pass, stop once the selection has reached `limit`. -/
def rankLoop (cfgs : List Str) (limit : Nat) : List Str → List Str → List Str
  | acc, [] => acc
  | acc, p :: ps =>
    let acc2 := rankPass p acc cfgs
    if limit ≤ acc2.length then acc2 else rankLoop cfgs limit acc2 ps

/-- Model of `rank_and_filter` (config.py lines 94-106). -/
def rank_and_filter (cfgs : List Str) (limit : Nat) : List Str :=
  (rankLoop cfgs limit [] rankPriority).take limit

/-! ### Dedup-set bookkeeping (claims C10 and C3) -/

theorem process_loop_not_seen (V : Validator) (seen : List Str) :
    ∀ (ps : List ProtocolInfo) (config c : Str),
      process_loop V seen ps config = some c → c ∉ seen := by
  intro ps
  induction ps with
  | nil => intro config c h; simp [process_loop] at h
  | cons p ps ih =>
    intro config c h
    simp only [process_loop] at h
    repeat' split at h
    all_goals first
      | exact ih _ c h
      | (simp at h
         done)
      | (rename_i hmem
         simp only [Option.some.injEq] at h
         subst h
         exact hmem)

theorem process_single_not_seen (V : Validator) (reg : List ProtocolInfo) (seen : List Str)
    (raw c : Str)
    (h : process_single_config V reg seen raw = some c) : c ∉ seen := by
  simp only [process_single_config] at h
  exact process_loop_not_seen V seen reg _ c h

theorem processRaws_seen_append (V : Validator) (reg : List ProtocolInfo) :
    ∀ (raws seen : List Str),
      (processRaws V reg seen raws).2 = seen ++ (processRaws V reg seen raws).1 := by
  intro raws
  induction raws with
  | nil => intro seen; simp [processRaws]
  | cons r rs ih =>
    intro seen
    cases h : process_single_config V reg seen r with
    | none => simpa [processRaws, h] using ih seen
    | some c =>
      simp only [processRaws, h]
      rw [ih (seen ++ [c])]
      simp

theorem processRaws_accepted_spec (V : Validator) (reg : List ProtocolInfo) :
    ∀ (raws seen : List Str),
      (processRaws V reg seen raws).1.Nodup ∧
      ∀ c ∈ (processRaws V reg seen raws).1, c ∉ seen := by
  intro raws
  induction raws with
  | nil => intro seen; simp [processRaws]
  | cons r rs ih =>
    intro seen
    cases h : process_single_config V reg seen r with
    | none => simpa [processRaws, h] using ih seen
    | some c =>
      have hc := process_single_not_seen V reg seen r c h
      have ih2 := ih (seen ++ [c])
      constructor
      · simp only [processRaws, h]
        refine List.nodup_cons.mpr ⟨?_, ih2.1⟩
        intro hmem
        have := ih2.2 c hmem
        simp at this
      · intro x hx
        simp only [processRaws, h, List.mem_cons] at hx
        rcases hx with rfl | hx
        · exact hc
        · have hnot := ih2.2 x hx
          intro hxs
          exact hnot (by simp [hxs])

theorem runChannels_spec (V : Validator) (reg : List ProtocolInfo) :
    ∀ (chs : List (List Str)) (seen : List Str),
      (runChannels V reg seen chs).1.Nodup ∧
      (∀ c ∈ (runChannels V reg seen chs).1, c ∉ seen) ∧
      (runChannels V reg seen chs).2 = seen ++ (runChannels V reg seen chs).1 := by
  intro chs
  induction chs with
  | nil => intro seen; simp [runChannels]
  | cons ch chs ih =>
    intro seen
    simp only [runChannels]
    have h1 := processRaws_accepted_spec V reg ch seen
    have hseen := processRaws_seen_append V reg ch seen
    have ih2 := ih (processRaws V reg seen ch).2
    refine ⟨?_, ?_, ?_⟩
    · rw [List.nodup_append]
      refine ⟨h1.1, ih2.1, ?_⟩
      intro x hx1 hx2
      have hnot := ih2.2.1 x hx2
      apply hnot
      rw [hseen]
      simp [hx1]
    · intro c hc
      rcases List.mem_append.mp hc with hcl | hcr
      · exact h1.2 c hcl
      · have hnot := ih2.2.1 c hcr
        rw [hseen] at hnot
        intro hcs
        exact hnot (by simp [hcs])
    · rw [ih2.2.2, hseen]
      simp

/-! ### Selector structure lemmas -/

theorem collectBuckets_prefix_flatten : ∀ (bs : List (List Str)) (acc : List Str),
    collectBuckets acc bs <+: acc ++ bs.flatten := by
  intro bs
  induction bs with
  | nil => intro acc; simp [collectBuckets]
  | cons b bs ih =>
    intro acc
    simp only [collectBuckets]
    by_cases h : 150 ≤ (acc ++ b).length
    · rw [if_pos h, List.flatten_cons, ← List.append_assoc]
      exact List.prefix_append _ _
    · rw [if_neg h, List.flatten_cons, ← List.append_assoc]
      exact ih (acc ++ b)

theorem balance_protocols_prefix_flatten (reg : List ProtocolInfo) (cfgs : List Str) :
    balance_protocols reg cfgs <+:
      ((sortedProtocols reg).map fun e => bucket (registrySchemes reg) cfgs e.scheme).flatten := by
  simp only [balance_protocols]
  refine ( List.take_prefix _ _).trans ?_
  simpa using collectBuckets_prefix_flatten
    ((sortedProtocols reg).map fun e => bucket (registrySchemes reg) cfgs e.scheme) []

theorem mem_bucket (keys cfgs : List Str) (p c : Str) :
    c ∈ bucket keys cfgs p ↔ c ∈ cfgs ∧ firstProto keys c = some p := by
  simp [bucket, List.mem_filter]

theorem sortedProtocols_perm (reg : List ProtocolInfo) :
    List.Perm (sortedProtocols reg) reg :=
  List.mergeSort_perm reg protoLe

theorem sortedProtocols_schemes_nodup (reg : List ProtocolInfo)
    (hnd : (registrySchemes reg).Nodup) :
    ((sortedProtocols reg).map (fun e => e.scheme)).Nodup := by
  have hp : List.Perm ((sortedProtocols reg).map fun e => e.scheme) (registrySchemes reg) :=
    (sortedProtocols_perm reg).map _
  exact hp.nodup_iff.mpr hnd

theorem sortedProtocols_pairwise_ne (reg : List ProtocolInfo)
    (hnd : (registrySchemes reg).Nodup) :
    (sortedProtocols reg).Pairwise (fun a b => a.scheme ≠ b.scheme) := by
  have h := sortedProtocols_schemes_nodup reg hnd
  rw [List.Nodup, List.pairwise_map] at h
  exact h

theorem bucket_disjoint (keys cfgs : List Str) (p q : Str) (hne : p ≠ q) :
    List.Disjoint (bucket keys cfgs p) (bucket keys cfgs q) := by
  intro c hp hq
  have h1 := (mem_bucket keys cfgs p c).mp hp
  have h2 := (mem_bucket keys cfgs q c).mp hq
  exact hne (Option.some.inj (h1.2.symm.trans h2.2))

theorem balance_protocols_nodup (reg : List ProtocolInfo) (cfgs : List Str)
    (hnd : (registrySchemes reg).Nodup) (hcf : cfgs.Nodup) :
    (balance_protocols reg cfgs).Nodup := by
  have hflat :
      (((sortedProtocols reg).map fun e =>
        bucket (registrySchemes reg) cfgs e.scheme).flatten).Nodup := by
    rw [List.nodup_flatten]
    constructor
    · intro l hl
      obtain ⟨e, _, rfl⟩ := List.mem_map.mp hl
      exact hcf.filter _
    · rw [List.pairwise_map]
      exact (sortedProtocols_pairwise_ne reg hnd).imp
        (fun h => bucket_disjoint _ _ _ _ h)
  exact hflat.sublist (balance_protocols_prefix_flatten reg cfgs).sublist

/-! ### Concrete fixtures for witnesses -/

/-- Registry entry fixture: the vless scheme with priority 3. -/
def vlessEntry : ProtocolInfo :=
  ⟨"vless://".toList, [], true, 3⟩

/-- Registry entry fixture: the ss scheme with priority 1. -/
def ssEntry : ProtocolInfo :=
  ⟨"ss://".toList, [], true, 1⟩

/-- Registry fixture with two enabled protocols of distinct priorities. -/
def regW : List ProtocolInfo :=
  [vlessEntry, ssEntry]

/-- Merged-configs fixture, one record per protocol of `regW`. -/
def cfgsW : List Str :=
  ["vless://a".toList, "ss://b".toList]

/-- C10: a candidate dropped by `process_single_config` (returning
`None`) leaves the dedup set `seen_configs` unchanged, and over any
candidate list the final set is exactly the initial set extended by the
accepted records: insertion happens only on acceptance. -/
theorem dedup_inserted_only_on_accept (V : Validator) (reg : List ProtocolInfo) :
    (∀ (seen : List Str) (raw : Str), process_single_config V reg seen raw = none →
      processRaws V reg seen [raw] = ([], seen)) ∧
    (∀ (seen raws : List Str),
      (processRaws V reg seen raws).2 = seen ++ (processRaws V reg seen raws).1) := by
  constructor
  · intro seen raw h
    simp [processRaws, h]
  · intro seen raws
    exact processRaws_seen_append V reg raws seen

theorem dedup_inserted_only_on_accept_witness :
    processRaws trivialValidator regW [] ["nomatch".toList] = ([], []) :=
  (dedup_inserted_only_on_accept trivialValidator regW).1 [] ("nomatch".toList) (by decide)

/-- C3: in a sequential run the accepted records of all channels are
pairwise distinct (the shared `seen_configs` set filters duplicates),
and the final balanced output contains no duplicate config strings. -/
theorem run_no_duplicate_configs (V : Validator) (reg : List ProtocolInfo)
    (chRaws : List (List Str)) (hnd : (registrySchemes reg).Nodup) :
    (runChannels V reg [] chRaws).1.Nodup ∧
    (fetch_all_configs V reg chRaws).Nodup := by
  have h := runChannels_spec V reg chRaws []
  refine ⟨h.1, ?_⟩
  simp only [fetch_all_configs]
  by_cases he : (runChannels V reg [] chRaws).1 = []
  · simp [he]
  · rw [if_neg he]
    exact balance_protocols_nodup reg _ hnd h.1

theorem run_no_duplicate_configs_witness :
    (runChannels trivialValidator regW [] [["vless://a".toList]]).1.Nodup ∧
    (fetch_all_configs trivialValidator regW [["vless://a".toList]]).Nodup :=
  run_no_duplicate_configs trivialValidator regW [["vless://a".toList]] (by decide)

/-! ### Priority ordering of the selector (claim C2) -/

theorem prefix_split_order {α : Type} (P Q : α → Prop) (out l₁ l₂ : List α)
    (hpre : out <+: l₁ ++ l₂)
    (h₁ : ∀ c ∈ l₁, ¬ Q c) (h₂ : ∀ c ∈ l₂, ¬ P c) :
    (∀ (i j : Nat) (hi : i < out.length) (hj : j < out.length),
        P out[i] → Q out[j] → i < j) ∧
    (∀ b ∈ out, Q b → ∀ x ∈ l₁, x ∈ out) := by
  have hPidx : ∀ (i : Nat) (hi : i < out.length), P out[i] → i < l₁.length := by
    intro i hi hP
    by_contra hge
    push_neg at hge
    have hi2 : i < (l₁ ++ l₂).length := Nat.lt_of_lt_of_le hi hpre.length_le
    have he : out[i] = (l₁ ++ l₂)[i] := hpre.getElem hi
    rw [List.getElem_append_right hge] at he
    refine h₂ out[i] ?_ hP
    rw [he]
    exact List.getElem_mem _
  have hQidx : ∀ (j : Nat) (hj : j < out.length), Q out[j] → l₁.length ≤ j := by
    intro j hj hQ
    by_contra hlt
    push_neg at hlt
    have hj2 : j < (l₁ ++ l₂).length := Nat.lt_of_lt_of_le hj hpre.length_le
    have he : out[j] = (l₁ ++ l₂)[j] := hpre.getElem hj
    rw [List.getElem_append_left hlt] at he
    refine h₁ out[j] ?_ hQ
    rw [he]
    exact List.getElem_mem _
  refine ⟨fun i j hi hj hP hQ => Nat.lt_of_lt_of_le (hPidx i hi hP) (hQidx j hj hQ), ?_⟩
  intro b hb hQb x hx
  obtain ⟨j, hj, rfl⟩ := List.mem_iff_getElem.mp hb
  have hlen : l₁.length ≤ out.length := Nat.le_of_lt (Nat.lt_of_le_of_lt (hQidx j hj hQb) hj)
  have hl1 : l₁ <+: out :=
    List.prefix_of_prefix_length_le (List.prefix_append l₁ l₂) hpre hlen
  exact hl1.subset hx

theorem mem_flatten_take {α : Type} (bs : List (List α)) (m : Nat) (c : α)
    (h : c ∈ (bs.take m).flatten) : ∃ (k : Nat) (hk : k < bs.length), k < m ∧ c ∈ bs[k] := by
  obtain ⟨l, hl, hc⟩ := List.mem_flatten.mp h
  obtain ⟨k, hk, hg⟩ := List.mem_iff_getElem.mp hl
  have hk1 : k < bs.length := by simp at hk; omega
  have hk2 : k < m := by simp at hk; omega
  refine ⟨k, hk1, hk2, ?_⟩
  rw [List.getElem_take] at hg
  rw [hg]
  exact hc

theorem mem_flatten_drop {α : Type} (bs : List (List α)) (m : Nat) (c : α)
    (h : c ∈ (bs.drop m).flatten) : ∃ (k : Nat) (hk : k < bs.length), m ≤ k ∧ c ∈ bs[k] := by
  obtain ⟨l, hl, hc⟩ := List.mem_flatten.mp h
  obtain ⟨k0, hk0, hg⟩ := List.mem_iff_getElem.mp hl
  have hk1 : m + k0 < bs.length := by simp at hk0; omega
  refine ⟨m + k0, hk1, by omega, ?_⟩
  rw [List.getElem_drop] at hg
  rw [hg]
  exact hc

theorem mem_flatten_take_intro {α : Type} (bs : List (List α)) (m k : Nat)
    (hk : k < bs.length) (hkm : k < m) (c : α) (hc : c ∈ bs[k]) :
    c ∈ (bs.take m).flatten := by
  refine List.mem_flatten.mpr ⟨bs[k], ?_, hc⟩
  exact List.mem_take_iff_getElem.mpr ⟨k, by simp; omega, by simp [List.getElem_take]⟩

/-- Core ordering property of the bucket walk: for a bucket list built
from registry entries with pairwise distinct schemes, sorted so that
strictly higher priorities come first, any prefix of the flattened
buckets places the records of a higher-priority protocol before those
of a lower-priority one, and contains the whole higher-priority bucket
as soon as it contains any lower-priority record. -/
theorem bucket_walk_order (keys cfgs : List Str) (sp : List ProtocolInfo)
    (hnodup : (sp.map fun e => e.scheme).Nodup)
    (hsorted : sp.Pairwise fun a b => protoLe a b = true)
    (A B : ProtocolInfo) (hA : A ∈ sp) (hB : B ∈ sp) (hprio : B.priority < A.priority)
    (out : List Str)
    (hpre : out <+: (sp.map fun e => bucket keys cfgs e.scheme).flatten) :
    (∀ (i j : Nat) (hi : i < out.length) (hj : j < out.length),
        firstProto keys out[i] = some A.scheme →
        firstProto keys out[j] = some B.scheme → i < j) ∧
    (∀ b ∈ out, firstProto keys b = some B.scheme →
        ∀ a ∈ bucket keys cfgs A.scheme, a ∈ out) := by
  obtain ⟨iA, hiA, hgA⟩ := List.mem_iff_getElem.mp hA
  obtain ⟨iB, hiB, hgB⟩ := List.mem_iff_getElem.mp hB
  have hinj : ∀ (k1 k2 : Nat) (h1 : k1 < sp.length) (h2 : k2 < sp.length),
      sp[k1].scheme = sp[k2].scheme → k1 = k2 := by
    intro k1 k2 h1 h2 he
    have h1m : k1 < (sp.map fun e => e.scheme).length := by simpa using h1
    have h2m : k2 < (sp.map fun e => e.scheme).length := by simpa using h2
    have hmap : (sp.map fun e => e.scheme)[k1] = (sp.map fun e => e.scheme)[k2] := by
      simpa using he
    exact (List.Nodup.getElem_inj_iff hnodup).mp hmap
  have hABne : A ≠ B := by
    intro he
    rw [he] at hprio
    exact lt_irrefl _ hprio
  have hAB : iA < iB := by
    rcases Nat.lt_trichotomy iA iB with h | h | h
    · exact h
    · exfalso
      subst h
      exact hABne (hgA.symm.trans hgB)
    · exfalso
      have hop := List.pairwise_iff_getElem.mp hsorted iB iA hiB hiA h
      rw [hgA, hgB] at hop
      simp only [protoLe, decide_eq_true_eq] at hop
      omega
  have hbslen : (sp.map fun e => bucket keys cfgs e.scheme).length = sp.length := by simp
  have hbsk : ∀ (k : Nat) (hk1 : k < sp.length)
      (hk2 : k < (sp.map fun e => bucket keys cfgs e.scheme).length),
      (sp.map fun e => bucket keys cfgs e.scheme)[k] = bucket keys cfgs sp[k].scheme := by
    intro k hk1 hk2
    simp
  have hQl₁ : ∀ c ∈ ((sp.map fun e => bucket keys cfgs e.scheme).take (iA + 1)).flatten,
      ¬ firstProto keys c = some B.scheme := by
    intro c hc hQ
    obtain ⟨k, hk, hkm, hck⟩ := mem_flatten_take _ (iA + 1) c hc
    have hks : k < sp.length := by omega
    rw [hbsk k hks (by simpa using hks)] at hck
    have hcf := (mem_bucket keys cfgs _ c).mp hck
    have heq : sp[k].scheme = B.scheme := Option.some.inj (hcf.2.symm.trans hQ)
    have hkB : k = iB := hinj k iB hks hiB (by rw [heq, ← hgB])
    omega
  have hPl₂ : ∀ c ∈ ((sp.map fun e => bucket keys cfgs e.scheme).drop (iA + 1)).flatten,
      ¬ firstProto keys c = some A.scheme := by
    intro c hc hP
    obtain ⟨k, hk, hkm, hck⟩ := mem_flatten_drop _ (iA + 1) c hc
    have hks : k < sp.length := by omega
    rw [hbsk k hks (by simpa using hks)] at hck
    have hcf := (mem_bucket keys cfgs _ c).mp hck
    have heq : sp[k].scheme = A.scheme := Option.some.inj (hcf.2.symm.trans hP)
    have hkA : k = iA := hinj k iA hks hiA (by rw [heq, ← hgA])
    omega
  have hpre2 : out <+: ((sp.map fun e => bucket keys cfgs e.scheme).take (iA + 1)).flatten ++
      ((sp.map fun e => bucket keys cfgs e.scheme).drop (iA + 1)).flatten := by
    rw [← List.flatten_append, List.take_append_drop]
    exact hpre
  have hmain := prefix_split_order
    (fun c => firstProto keys c = some A.scheme)
    (fun c => firstProto keys c = some B.scheme)
    out _ _ hpre2 hQl₁ hPl₂
  refine ⟨hmain.1, ?_⟩
  intro b hb hQb a ha
  refine hmain.2 b hb hQb a ?_
  refine mem_flatten_take_intro _ (iA + 1) iA (by omega) (by omega) a ?_
  rw [hbsk iA hiA (by simpa using hiA), hgA]
  exact ha

/-- C2: for protocols A and B of the registry with strictly higher
priority for A and at least one available record each, the output of
`balance_protocols` places every A record it contains before every B
record, and contains a B record only when the whole A bucket has
already been placed. -/
theorem balance_priority_order (reg : List ProtocolInfo) (cfgs : List Str)
    (hnd : (registrySchemes reg).Nodup)
    (A B : ProtocolInfo) (hA : A ∈ reg) (hB : B ∈ reg)
    (hprio : B.priority < A.priority)
    (hAav : bucket (registrySchemes reg) cfgs A.scheme ≠ [])
    (hBav : bucket (registrySchemes reg) cfgs B.scheme ≠ []) :
    (∀ (i j : Nat) (hi : i < (balance_protocols reg cfgs).length)
        (hj : j < (balance_protocols reg cfgs).length),
        firstProto (registrySchemes reg) ((balance_protocols reg cfgs)[i]) = some A.scheme →
        firstProto (registrySchemes reg) ((balance_protocols reg cfgs)[j]) = some B.scheme →
        i < j) ∧
    (∀ b ∈ balance_protocols reg cfgs,
        firstProto (registrySchemes reg) b = some B.scheme →
        ∀ a ∈ bucket (registrySchemes reg) cfgs A.scheme,
          a ∈ balance_protocols reg cfgs) := by
  have htrans : ∀ (a b c : ProtocolInfo), protoLe a b → protoLe b c → protoLe a c := by
    intro a b c hab hbc
    simp only [protoLe, decide_eq_true_eq] at *
    omega
  have htotal : ∀ (a b : ProtocolInfo), protoLe a b || protoLe b a := by
    intro a b
    simp only [protoLe]
    by_cases h : b.priority ≤ a.priority
    · simp [h]
    · have : a.priority ≤ b.priority := by omega
      simp [this]
  have hsorted : (sortedProtocols reg).Pairwise fun a b => protoLe a b = true :=
    List.sorted_mergeSort htrans htotal reg
  exact bucket_walk_order (registrySchemes reg) cfgs (sortedProtocols reg)
    (sortedProtocols_schemes_nodup reg hnd) hsorted A B
    ((sortedProtocols_perm reg).mem_iff.mpr hA) ((sortedProtocols_perm reg).mem_iff.mpr hB)
    hprio (balance_protocols reg cfgs) (balance_protocols_prefix_flatten reg cfgs)

theorem balance_priority_order_witness :
    ssEntry.priority < vlessEntry.priority ∧
    ((∀ (i j : Nat) (hi : i < (balance_protocols regW cfgsW).length)
        (hj : j < (balance_protocols regW cfgsW).length),
        firstProto (registrySchemes regW) ((balance_protocols regW cfgsW)[i]) =
          some vlessEntry.scheme →
        firstProto (registrySchemes regW) ((balance_protocols regW cfgsW)[j]) =
          some ssEntry.scheme →
        i < j) ∧
     (∀ b ∈ balance_protocols regW cfgsW,
        firstProto (registrySchemes regW) b = some ssEntry.scheme →
        ∀ a ∈ bucket (registrySchemes regW) cfgsW vlessEntry.scheme,
          a ∈ balance_protocols regW cfgsW)) :=
  ⟨by decide,
   balance_priority_order regW cfgsW (by decide) vlessEntry ssEntry
     (by decide) (by decide) (by decide) (by decide) (by decide)⟩

/-! ### Size bound of the selector (claim C7) -/

theorem sum_map_split {α : Type} (f g : α → Nat) : ∀ (l : List α),
    (l.map fun x => f x + g x).sum = (l.map f).sum + (l.map g).sum := by
  intro l
  induction l with
  | nil => simp
  | cons a l ih =>
    simp only [List.map_cons, List.sum_cons, ih]
    omega

theorem sum_indicator_zero (q : Str) : ∀ (ps : List Str), q ∉ ps →
    (ps.map fun p => if q = p then (1 : Nat) else 0).sum = 0 := by
  intro ps
  induction ps with
  | nil => intro _; simp
  | cons p ps ih =>
    intro h
    simp only [List.map_cons, List.sum_cons]
    rw [if_neg (fun he => h (by simp [he])), ih (fun hm => h (by simp [hm]))]

theorem sum_indicator_le_one (q : Str) : ∀ (ps : List Str), ps.Nodup →
    (ps.map fun p => if q = p then (1 : Nat) else 0).sum ≤ 1 := by
  intro ps
  induction ps with
  | nil => intro _; simp
  | cons p ps ih =>
    intro hnd
    simp only [List.map_cons, List.sum_cons]
    by_cases h : q = p
    · subst h
      rw [if_pos rfl, sum_indicator_zero q ps (List.nodup_cons.mp hnd).1]
    · rw [if_neg h]
      simpa using ih (List.nodup_cons.mp hnd).2

theorem sum_bucket_le (keys ps : List Str) (hnd : ps.Nodup) :
    ∀ (cfgs : List Str),
      (ps.map fun p => (bucket keys cfgs p).length).sum ≤
        (cfgs.filter fun c => (firstProto keys c).isSome).length := by
  intro cfgs
  induction cfgs with
  | nil => simp [bucket]
  | cons c cs ih =>
    have hsteps : ∀ p ∈ ps, (bucket keys (c :: cs) p).length =
        (if firstProto keys c = some p then 1 else 0) + (bucket keys cs p).length := by
      intro p _
      by_cases h : firstProto keys c = some p
      · simp [bucket, List.filter_cons, h]
        omega
      · simp [bucket, List.filter_cons, h]
    rw [List.map_congr_left hsteps, sum_map_split]
    cases hfp : firstProto keys c with
    | none =>
      have hz : (ps.map fun p => if (none : Option Str) = some p then (1 : Nat) else 0).sum
          = 0 := by
        simp
      rw [hz]
      have hrhs : ((c :: cs).filter fun x => (firstProto keys x).isSome).length =
          (cs.filter fun x => (firstProto keys x).isSome).length := by
        simp [List.filter_cons, hfp]
      rw [hrhs]
      simpa using ih
    | some q =>
      have hone : (ps.map fun p => if (some q : Option Str) = some p then (1 : Nat) else 0).sum
          ≤ 1 := by
        rw [List.map_congr_left (fun p _ => by simp :
          ∀ p ∈ ps, (if (some q : Option Str) = some p then (1 : Nat) else 0) =
            if q = p then (1 : Nat) else 0)]
        exact sum_indicator_le_one q ps hnd
      have hrhs : ((c :: cs).filter fun x => (firstProto keys x).isSome).length =
          (cs.filter fun x => (firstProto keys x).isSome).length + 1 := by
        simp [List.filter_cons, hfp]
      rw [hrhs]
      omega

theorem flatten_buckets_le (reg : List ProtocolInfo) (cfgs : List Str)
    (hnd : (registrySchemes reg).Nodup) :
    (((sortedProtocols reg).map fun e =>
        bucket (registrySchemes reg) cfgs e.scheme).flatten).length ≤
      (cfgs.filter fun c => (firstProto (registrySchemes reg) c).isSome).length := by
  rw [List.length_flatten, List.map_map]
  have hmm : ((sortedProtocols reg).map
      (List.length ∘ fun e => bucket (registrySchemes reg) cfgs e.scheme)) =
      (((sortedProtocols reg).map fun e => e.scheme).map
        fun p => (bucket (registrySchemes reg) cfgs p).length) := by
    rw [List.map_map]
    rfl
  rw [hmm]
  exact sum_bucket_le (registrySchemes reg) _ (sortedProtocols_schemes_nodup reg hnd) cfgs

theorem collectBuckets_all : ∀ (bs : List (List Str)) (acc : List Str),
    (acc ++ bs.flatten).length < 150 → collectBuckets acc bs = acc ++ bs.flatten := by
  intro bs
  induction bs with
  | nil => intro acc _; simp [collectBuckets]
  | cons b bs ih =>
    intro acc h
    simp only [List.flatten_cons, List.length_append] at h
    simp only [collectBuckets]
    rw [if_neg (by simp only [List.length_append]; omega)]
    rw [ih (acc ++ b) (by simp only [List.length_append]; omega)]
    simp [List.flatten_cons]

theorem balance_subset (reg : List ProtocolInfo) (cfgs : List Str) :
    ∀ c ∈ balance_protocols reg cfgs, c ∈ cfgs := by
  intro c hc
  have hmem := (balance_protocols_prefix_flatten reg cfgs).subset hc
  obtain ⟨l, hl, hcl⟩ := List.mem_flatten.mp hmem
  obtain ⟨e, _, rfl⟩ := List.mem_map.mp hl
  exact ((mem_bucket _ _ _ _).mp hcl).1

theorem balance_all_available (reg : List ProtocolInfo) (cfgs : List Str)
    (hnd : (registrySchemes reg).Nodup)
    (hfew : (cfgs.filter fun c => (firstProto (registrySchemes reg) c).isSome).length < 150) :
    ∀ c ∈ cfgs, (firstProto (registrySchemes reg) c).isSome →
      c ∈ balance_protocols reg cfgs := by
  intro c hc hsome
  have hflatlen := flatten_buckets_le reg cfgs hnd
  have hlen : (((sortedProtocols reg).map fun e =>
      bucket (registrySchemes reg) cfgs e.scheme).flatten).length < 150 := by omega
  have hbal : balance_protocols reg cfgs = ((sortedProtocols reg).map fun e =>
      bucket (registrySchemes reg) cfgs e.scheme).flatten := by
    simp only [balance_protocols]
    rw [collectBuckets_all _ [] (by simpa using hlen)]
    rw [List.nil_append]
    exact List.take_of_length_le (Nat.le_of_lt hlen)
  rw [hbal]
  obtain ⟨q, hq⟩ := Option.isSome_iff_exists.mp hsome
  have hqmem : q ∈ registrySchemes reg := List.mem_of_find?_eq_some hq
  obtain ⟨e, he, hesch⟩ := List.mem_map.mp hqmem
  have hesp : e ∈ sortedProtocols reg := (sortedProtocols_perm reg).mem_iff.mpr he
  refine List.mem_flatten.mpr ⟨bucket (registrySchemes reg) cfgs e.scheme, ?_, ?_⟩
  · exact List.mem_map.mpr ⟨e, hesp, rfl⟩
  · exact (mem_bucket _ _ _ _).mpr ⟨hc, by rw [hq, hesch]⟩

/-- C7: the balanced output never exceeds the hard-coded limit of 150
and is drawn from the merged input without padding; when fewer than 150
records are available (records matched to some registry scheme), all of
them appear in the output; and `rank_and_filter` respects its `limit`
parameter. -/
theorem selector_respects_limit (reg : List ProtocolInfo) (cfgs : List Str) (limit : Nat)
    (hnd : (registrySchemes reg).Nodup) :
    (balance_protocols reg cfgs).length ≤ 150 ∧
    (∀ c ∈ balance_protocols reg cfgs, c ∈ cfgs) ∧
    ((cfgs.filter fun c => (firstProto (registrySchemes reg) c).isSome).length < 150 →
      ∀ c ∈ cfgs, (firstProto (registrySchemes reg) c).isSome →
        c ∈ balance_protocols reg cfgs) ∧
    (rank_and_filter cfgs limit).length ≤ limit := by
  refine ⟨?_, balance_subset reg cfgs, ?_, ?_⟩
  · simp only [balance_protocols]
    exact List.length_take_le _ _
  · intro hfew
    exact balance_all_available reg cfgs hnd hfew
  · simp only [rank_and_filter]
    exact List.length_take_le _ _

theorem selector_respects_limit_witness :
    (balance_protocols regW cfgsW).length ≤ 150 ∧
    (∀ c ∈ balance_protocols regW cfgsW, c ∈ cfgsW) ∧
    ((cfgsW.filter fun c => (firstProto (registrySchemes regW) c).isSome).length < 150 →
      ∀ c ∈ cfgsW, (firstProto (registrySchemes regW) c).isSome →
        c ∈ balance_protocols regW cfgsW) ∧
    (rank_and_filter cfgsW 5).length ≤ 5 :=
  selector_respects_limit regW cfgsW 5 (by decide)

/-! ### Alias normalization (claim C6) -/

theorem dropWhile_cons_false {p : Char → Bool} {c : Char} (l : Str) (h : p c = false) :
    (c :: l).dropWhile p = c :: l := by
  rw [List.dropWhile_cons, h]
  simp

theorem pyRstrip_append (pre s : Str)
    (h : pre.reverse.dropWhile pyIsSpace = pre.reverse) :
    pyRstrip (pre ++ s) = pre ++ pyRstrip s := by
  unfold pyRstrip
  rw [List.reverse_append, List.dropWhile_append]
  by_cases he : (s.reverse.dropWhile pyIsSpace).isEmpty
  · rw [if_pos he, h]
    have hsr : s.reverse.dropWhile pyIsSpace = [] := List.isEmpty_iff.mp he
    rw [hsr]
    simp
  · rw [if_neg he]
    simp [List.reverse_append]

theorem pyStrip_hy2 (s : Str) :
    pyStrip ("hy2://".toList ++ s) = "hy2://".toList ++ pyRstrip s := by
  unfold pyStrip
  rw [show ("hy2://".toList ++ s).dropWhile pyIsSpace =
    'h' :: ("y2://".toList ++ s) from dropWhile_cons_false _ rfl]
  exact pyRstrip_append ("hy2://".toList) s rfl

theorem pyStrip_hysteria2 (s : Str) :
    pyStrip ("hysteria2://".toList ++ s) = "hysteria2://".toList ++ pyRstrip s := by
  unfold pyStrip
  rw [show ("hysteria2://".toList ++ s).dropWhile pyIsSpace =
    'h' :: ("ysteria2://".toList ++ s) from dropWhile_cons_false _ rfl]
  exact pyRstrip_append ("hysteria2://".toList) s rfl

theorem normalize_on_hy2 (t : Str) :
    normalize_hysteria2_protocol ("hy2://".toList ++ t) = "hysteria2://".toList ++ t := by
  unfold normalize_hysteria2_protocol
  rw [if_pos ( List.isPrefixOf_iff_prefix.mpr (List.prefix_append _ _))]
  congr 1

theorem hy2_not_prefix_of_hysteria2 (t : Str) :
    "hy2://".toList.isPrefixOf ("hysteria2://".toList ++ t) = false := by
  show (['h', 'y', '2', ':', '/', '/'] : Str).isPrefixOf
    ('h' :: 'y' :: 's' :: ("teria2://".toList ++ t)) = false
  simp [List.isPrefixOf]

/-- C6: a candidate spelled `hy2://payload` is processed identically to
the same candidate spelled `hysteria2://payload`: `process_single_config`
normalizes the former to the latter before protocol matching, the
enablement check and validation, so both resolve to the same registry
entry; and for any bucketing key list the normalized candidates fall in
the same bucket of the selector. -/
theorem hy2_alias_equivalent (V : Validator) (reg : List ProtocolInfo) (seen : List Str)
    (s : Str) :
    process_single_config V reg seen ("hy2://".toList ++ s) =
      process_single_config V reg seen ("hysteria2://".toList ++ s) ∧
    ∀ keys : List Str,
      firstProto keys (normalize_hysteria2_protocol (pyStrip ("hy2://".toList ++ s))) =
        firstProto keys (pyStrip ("hysteria2://".toList ++ s)) := by
  have hkey : normalize_hysteria2_protocol (pyStrip ("hy2://".toList ++ s)) =
      pyStrip ("hysteria2://".toList ++ s) := by
    rw [pyStrip_hy2, pyStrip_hysteria2, normalize_on_hy2]
  constructor
  · simp only [process_single_config]
    rw [pyStrip_hy2, pyStrip_hysteria2]
    rw [if_pos ( List.isPrefixOf_iff_prefix.mpr (List.prefix_append _ _))]
    rw [if_neg (by simp [hy2_not_prefix_of_hysteria2])]
    rw [normalize_on_hy2]
  · intro keys
    rw [hkey]

/-! ### Concurrency of the dedup set (claim C8)

`seen_configs` is a plain Python `set` shared by the channel tasks of
the `ThreadPoolExecutor` (fetch_configs.py line 134).  For one
candidate string, a channel task touches the shared set in two separate
steps: the membership test `clean_config not in self.seen_configs`
(line 82, inside `process_single_config`) and, only later, the
insertion `self.seen_configs.add(processed)` together with the append
to the channel result (lines 117-118).  Other work (cleaning,
validation) happens between the two steps, so the scheduler may
interleave the steps of two tasks.  The state machine below models two
channel tasks both holding the same cleaned candidate: program counter
0 is before the membership test, 1 is after a negative membership test
(the task will accept), 2 is done.
-/

/-- Shared state of the two-task interleaving: the dedup set, the two
channel result lists and the two program counters. -/
structure RaceState where
  seen : List Str
  acc1 : List Str
  acc2 : List Str
  pc1 : Nat
  pc2 : Nat
deriving DecidableEq

/-- One step of the first task for candidate `c`: at pc 0 run the
membership test of line 82; at pc 1 run the insertion of lines
117-118. -/
def stepTask1 (c : Str) (st : RaceState) : RaceState :=
  if st.pc1 = 0 then
    if c ∈ st.seen then { st with pc1 := 2 } else { st with pc1 := 1 }
  else if st.pc1 = 1 then
    { st with seen := st.seen ++ [c], acc1 := st.acc1 ++ [c], pc1 := 2 }
  else st

/-- One step of the second task, symmetric to `stepTask1`. -/
def stepTask2 (c : Str) (st : RaceState) : RaceState :=
  if st.pc2 = 0 then
    if c ∈ st.seen then { st with pc2 := 2 } else { st with pc2 := 1 }
  else if st.pc2 = 1 then
    { st with seen := st.seen ++ [c], acc2 := st.acc2 ++ [c], pc2 := 2 }
  else st

/-- Run a schedule: `true` lets the first task take its next step,
`false` the second. -/
def runSched (c : Str) : List Bool → RaceState → RaceState
  | [], st => st
  | t :: ts, st => runSched c ts (if t then stepTask1 c st else stepTask2 c st)

/-- Initial state of a run: empty dedup set, no results, both tasks
before their membership test. -/
def initRaceState : RaceState :=
  ⟨[], [], [], 0, 0⟩

/-- C8: the check-and-insert of the dedup set is NOT atomic.  Under the
interleaving check1, check2, insert1, insert2 both channel tasks see
the candidate as absent and both accept it, so the same config string
ends up in two channel result lists (and twice in the set), refuting
"accepted by at most one channel".  A fully sequential schedule of the
same two tasks accepts the candidate exactly once. -/
theorem dedup_race_double_accept :
    ("vless://a".toList ∈
        (runSched ("vless://a".toList) [true, false, true, false] initRaceState).acc1 ∧
      "vless://a".toList ∈
        (runSched ("vless://a".toList) [true, false, true, false] initRaceState).acc2) ∧
    ((runSched ("vless://a".toList) [true, true, false, false] initRaceState).acc1 =
        ["vless://a".toList] ∧
      (runSched ("vless://a".toList) [true, true, false, false] initRaceState).acc2 = []) := by
  decide
